import Mathlib

/-
Verification of pirr/sqlite_sync (src/sync.py).

The module synchronizes two SQLite databases attached under one connection:
`db_diff` compares a table's schema and computes source-only rows via a
UNION ALL / GROUP BY / HAVING sum(db)=2 query, `copy_rows` applies rows with
INSERT OR REPLACE through executemany, `get_references` orders tables by the
foreign keys found in their creation SQL with the regular expression
`references ["]*([A-z0-9]+)["]*` (case-insensitive), `get_all_tables` lists
tables, `check_name` validates identifiers and `get_connection` opens the
two database files.

The embedding below models the database state explicitly: a table's rows are
a `List (List α)`, the sqlite_master catalog is an association list from
table name to creation SQL, and the filesystem of `get_connection` is a
predicate on paths.  External SQL semantics (set difference by grouping,
replace-on-conflict keyed by an optional unique key, per-row execution of
executemany) are spelled out as Lean functions next to the function that
issues the SQL.
-/

/-! ## The reference-extracting regular expression (sync.py line 43)

`RE_REFERENCES = re.compile(r'references ["]*([A-z0-9]+)["]*', re.IGNORECASE)`.

The scanner below reproduces `RE_REFERENCES.findall` for ASCII input: at each
position it tries to match the literal `references ` case-insensitively, then
any number of double quotes, then one or more characters of the class
`[A-z0-9]` (which spans ASCII 0x41..0x7A, so it also contains brackets,
backslash, caret, underscore and backquote, plus the digits), then trailing
quotes; matching is non-overlapping and resumes after each match.  The
character class contains no double quote, so the greedy quote handling never
needs backtracking. -/

def quoteChar : Char := Char.ofNat 34

/-- The character class `[A-z0-9]` of RE_REFERENCES. -/
def isWordChar (c : Char) : Bool := ('A' ≤ c && c ≤ 'z') || ('0' ≤ c && c ≤ '9')

/-- Case-insensitive character comparison, as re.IGNORECASE on ASCII. -/
def charCI (a b : Char) : Bool := a.toLower == b.toLower

/-- Match a literal pattern case-insensitively at the head of the input,
returning the remaining input on success. -/
def stripCI : List Char → List Char → Option (List Char)
  | [], s => some s
  | _ :: _, [] => none
  | p :: ps, c :: cs => if charCI p c then stripCI ps cs else none

/-- Consume `["]*`. -/
def dropQuotes : List Char → List Char
  | [] => []
  | c :: cs => if c = quoteChar then dropQuotes cs else c :: cs

/-- Consume `[A-z0-9]*`, returning the consumed word and the rest. -/
def takeWord : List Char → List Char × List Char
  | [] => ([], [])
  | c :: cs =>
    if isWordChar c then
      let p := takeWord cs
      (c :: p.1, p.2)
    else ([], c :: cs)

/-- The pattern `references ` as a character list. -/
def refPat : List Char := ("references ").toList

/-- Try to match the whole RE_REFERENCES pattern at the head of the input;
on success return the captured group and the input after the match. -/
def matchRefAt (s : List Char) : Option (List Char × List Char) :=
  match stripCI refPat s with
  | none => none
  | some rest =>
    let afterQuotes := dropQuotes rest
    let p := takeWord afterQuotes
    if p.1.isEmpty then none else some (p.1, dropQuotes p.2)

/-- Scan the input left to right, emitting every non-overlapping match of
RE_REFERENCES; fuel is an upper bound on the scanned positions (each step
consumes at least one character, so the input length suffices). -/
def findAllAux : Nat → List Char → List String
  | 0, _ => []
  | _ + 1, [] => []
  | fuel + 1, c :: cs =>
    match matchRefAt (c :: cs) with
    | some p => String.mk p.1 :: findAllAux fuel p.2
    | none => findAllAux fuel cs

/-- `RE_REFERENCES.findall` on a creation-SQL string. -/
def findall (s : String) : List String := findAllAux s.toList.length s.toList

/-! ## check_name (sync.py lines 153-157) -/

/-- The per-character test of `check_name`: `symbol.isalnum() or
symbol.isdigit() or symbol in ('_', '-')` (`isdigit` is subsumed by
`isalnum`; Python's predicates are Unicode-aware, modelled here on ASCII). -/
def goodSymbol (c : Char) : Bool := c.isAlphanum || c.isDigit || c == '_' || c == '-'

/-- The character loop of `check_name`: the first offending character raises
`ValueError(f"You shouldn't use the table name - {table_name}")`. -/
def check_name_go (table_name : String) : List Char → Except String Unit
  | [] => Except.ok ()
  | c :: cs =>
    if goodSymbol c then check_name_go table_name cs
    else Except.error (("You shouldn't use the table name - ") ++ table_name)

/-- `check_name(table_name)` from sync.py. -/
def check_name (table_name : String) : Except String Unit :=
  check_name_go table_name table_name.toList

/-! ## db_diff (sync.py lines 46-84) -/

/-- One row of `PRAGMA_TABLE_INFO`: (cid, name, type, notnull, dflt_value,
pk).  The Python code turns these full tuples into sets and subtracts them,
so every field participates in the schema comparison. -/
structure ColInfo where
  cid : Nat
  name : String
  ctype : String
  notnull : Nat
  dflt : Option String
  pk : Nat
deriving DecidableEq, Repr

/-- The failure of db_diff's schema check.  It carries the tuples found only
in the source and only in the target (the Python code would in fact crash
with a TypeError while joining these tuples into the message string, but on
either reading an exception propagates and the diff is not computed). -/
inductive DiffError where
  | schemaMismatch (onlyInSource onlyInTarget : List ColInfo)
deriving DecidableEq, Repr

/-- `db_diff(conn, table_name, target_db_alias)`.

`sourceCols` and `targetCols` are the fetched `PRAGMA_TABLE_INFO` rows of
the two copies of the table, `sourceRows`/`targetRows` the rows of
`main.table` and `alias.table`.  The generated query

    SELECT cols FROM (SELECT 1 AS db, cols FROM target UNION ALL
                      SELECT 2 AS db, cols FROM source) q1
    GROUP BY cols HAVING sum(db)=2

groups the union by full row value (NULLs group together, matching plain
value equality here) and keeps a group exactly when 1*(occurrences in
target) + 2*(occurrences in source) = 2; the projection returns the group's
row value once.  `diffList` is that query's result set; `db_diff` guards it
with the schema check. -/
def diffList {α : Type} [DecidableEq α] (sourceRows targetRows : List (List α)) :
    List (List α) :=
  ((targetRows ++ sourceRows).dedup).filter
    (fun v => targetRows.count v + 2 * sourceRows.count v = 2)

def db_diff {α : Type} [DecidableEq α] (sourceCols targetCols : List ColInfo)
    (sourceRows targetRows : List (List α)) : Except DiffError (List (List α)) :=
  let columns_only_in_source := sourceCols.filter (fun c => !(decide (c ∈ targetCols)))
  let columns_only_in_backup := targetCols.filter (fun c => !(decide (c ∈ sourceCols)))
  if columns_only_in_source.isEmpty && columns_only_in_backup.isEmpty then
    Except.ok (diffList sourceRows targetRows)
  else
    Except.error (DiffError.schemaMismatch columns_only_in_source columns_only_in_backup)

/-! ## copy_rows (sync.py lines 87-98) -/

/-- Failures of `copy_rows`: `ValueError("rows attribute is empty")` for an
empty batch; `sqlite3.OperationalError` when the placeholder count (taken
from the first row) disagrees with the table's column count; and
`sqlite3.ProgrammingError` when a later row's length disagrees with the
placeholder count at binding time. -/
inductive CopyError where
  | emptyBatch
  | operationalArity
  | bindingMismatch
deriving DecidableEq, Repr

/-- Conflict of two rows under the table's primary/unique key, if any.  A
table without such a key is modelled with `key = fun _ => none`, for which
INSERT OR REPLACE degenerates into a plain insert. -/
def conflicts {α K : Type} [DecidableEq K] (key : List α → Option K) (x r : List α) : Bool :=
  match key x, key r with
  | some a, some b => decide (a = b)
  | _, _ => false

/-- Effect of `INSERT OR REPLACE INTO target VALUES (...)` for one row:
rows conflicting on the key are deleted, then the row is inserted. -/
def insertOrReplace1 {α K : Type} [DecidableEq K] (key : List α → Option K)
    (tbl : List (List α)) (r : List α) : List (List α) :=
  tbl.filter (fun x => !(conflicts key x r)) ++ [r]

/-- `conn.executemany(q, rows)`: the rows are executed one by one; `m` is
the number of `?` placeholders in the prepared statement.  A row whose
length differs from `m` fails at binding; a row of length `m ≠ ncols` fails
when the engine executes the insert.  Rows processed before a failing row
have already been written. -/
def executemany {α K : Type} [DecidableEq K] (ncols : Nat) (key : List α → Option K)
    (tbl : List (List α)) (m : Nat) : List (List α) → List (List α) × Option CopyError
  | [] => (tbl, none)
  | r :: rs =>
    if r.length ≠ m then (tbl, some CopyError.bindingMismatch)
    else if m ≠ ncols then (tbl, some CopyError.operationalArity)
    else executemany ncols key (insertOrReplace1 key tbl r) m rs

/-- `copy_rows(conn, table_name, rows, target_db_alias)`.  `ncols` is the
column count of the target table and `key` its primary/unique key.  The
placeholder count is `len(rows[0])`.  Returns the final contents of the
target table together with the error raised, if any. -/
def copy_rows {α K : Type} [DecidableEq K] (ncols : Nat) (key : List α → Option K)
    (tbl : List (List α)) (rows : List (List α)) : List (List α) × Option CopyError :=
  match rows with
  | [] => (tbl, some CopyError.emptyBatch)
  | r0 :: _ => executemany ncols key tbl r0.length rows

/-! ## get_references (sync.py lines 101-124) and get_all_tables -/

/-- `select sql from main.sqlite_master where tbl_name=?` followed by
`fetchone()`: the catalog is an association list from table name to creation
SQL, and the first matching entry wins. -/
def lookupSql : List (String × String) → String → Option String
  | [], _ => none
  | p :: rest, t => if p.1 = t then some p.2 else lookupSql rest t

/-- `references.sort(key=table.__eq__)`: a stable sort whose key is False
for other elements and True for elements equal to `table`, i.e. every
occurrence of `table` moves to the end, everything else keeps its order. -/
def pullToEnd (r : List String) (n : String) : List String :=
  r.filter (fun x => x ≠ n) ++ r.filter (fun x => x = n)

/-- The body of `for table in ref_tables` (lines 116-122) acting on the pair
(tables_copy, references): an already-listed table is pulled to the end, an
unseen and unqueued table is enqueued, and in every case the table is
appended to the references. -/
def processOne (qr : List String × List String) (n : String) : List String × List String :=
  if n ∈ qr.2 then (qr.1, pullToEnd qr.2 n ++ [n])
  else if n ∈ qr.1 then (qr.1, qr.2 ++ [n])
  else (qr.1 ++ [n], qr.2 ++ [n])

/-- The whole `for table in ref_tables` loop. -/
def processNames (names : List String) (q r : List String) : List String × List String :=
  names.foldl processOne (q, r)

/-- Result of running `get_references`: the returned list, or the TypeError
Python raises on `sql[0]` when `fetchone()` found no row for a table, or
exhaustion of the step budget of the embedding (shown unreachable below). -/
inductive GRes where
  | ok (l : List String)
  | typeError (t : String)
  | outOfFuel
deriving DecidableEq, Repr

/-- The `while tables_copy` loop of `get_references`: pop the first queued
table, record it, fetch its creation SQL, extract the referenced names and
process each in order. -/
def grRun (db : List (String × String)) : Nat → List String → List String → GRes
  | 0, q, refs => if q.isEmpty then GRes.ok refs else GRes.outOfFuel
  | fuel + 1, q, refs =>
    match q with
    | [] => GRes.ok refs
    | t :: rest =>
      let refs1 := if t ∈ refs then refs else refs ++ [t]
      match lookupSql db t with
      | none => GRes.typeError t
      | some sql =>
        let st := processNames (findall sql) rest refs1
        grRun db fuel st.1 st.2

/-- Every table name that any creation SQL of the catalog can ever emit. -/
def allCandidates (db : List (String × String)) : List String :=
  (db.map (fun p => findall p.2)).flatten

/-- `get_references(conn, tables)`.  The Python loop has no fuel; the bound
`tables.length + 2 * card (candidate names)` is proved sufficient below, so
the `outOfFuel` branch never fires. -/
def get_references (db : List (String × String)) (tables : List String) : GRes :=
  grRun db (tables.length + 2 * (allCandidates db).toFinset.card) tables []

/-- `get_all_tables(conn)`: the names of the catalog entries, in catalog
order. -/
def get_all_tables (db : List (String × String)) : List String :=
  db.map (fun p => p.1)

/-- Keep the first occurrence of each element, dropping later duplicates;
`seen` accumulates the elements already emitted. -/
def firstOcc (seen : List String) : List String → List String
  | [] => []
  | x :: xs => if x ∈ seen then firstOcc seen xs else x :: firstOcc (x :: seen) xs

/-- The order in which the orchestrator of the module docstring consumes the
resolver output: it walks the accumulated list in reverse (`new_data[::-1]`)
and each table acts at its first occurrence in that reversed walk. -/
def applyOrder (l : List String) : List String := firstOcc [] l.reverse

/-- Consumption order of a `get_references` result. -/
def applyOrderOf : GRes → List String
  | GRes.ok l => applyOrder l
  | _ => []

/-! ## get_connection (sync.py lines 132-150) -/

/-- The database resources `get_connection` can acquire. -/
inductive DbAction where
  | connect (path : String)
  | attach (path al : String)
deriving DecidableEq, Repr

/-- `get_connection(path_source_db, path_target_db, target_db_alias)` up to
the `yield`: both paths are checked with `os.path.exists` before
`sqlite3.connect` and before the ATTACH statement; on a missing path a
`FileNotFoundError` is raised and no resource is acquired.  `pathExists`
stands for the filesystem; on success the acquired resources are returned
in acquisition order. -/
def get_connection (pathExists : String → Bool)
    (path_source_db path_target_db target_db_alias : String) :
    Except String (List DbAction) :=
  if !(pathExists path_source_db) then
    Except.error (("Database ") ++ path_source_db ++ (" not found"))
  else if !(pathExists path_target_db) then
    Except.error (("Database ") ++ path_target_db ++ (" not found"))
  else
    Except.ok [DbAction.connect path_source_db,
               DbAction.attach path_target_db target_db_alias]

/-! ## Concrete databases used in the example theorems -/

/-- Creation SQL of a table A referencing B. -/
def sqlA : String := "CREATE TABLE A (id INTEGER PRIMARY KEY, b_id INTEGER REFERENCES B)"

/-- Creation SQL of a table B referencing C. -/
def sqlB : String := "CREATE TABLE B (id INTEGER PRIMARY KEY, c_id INTEGER REFERENCES C)"

/-- Creation SQL of a table C with no references. -/
def sqlC : String := "CREATE TABLE C (id INTEGER PRIMARY KEY)"

/-- A catalog whose sqlite_master lists A, B, C in that order. -/
def dbABC : List (String × String) := [(("A"), sqlA), (("B"), sqlB), (("C"), sqlC)]

/-- The same three tables, listed C, B, A (for instance because C was
created first, then B, then A). -/
def dbCBA : List (String × String) := [(("C"), sqlC), (("B"), sqlB), (("A"), sqlA)]

/-- Creation SQL of a two-table example: A references B. -/
def sqlA2 : String := "CREATE TABLE A (id INTEGER, b INTEGER REFERENCES B)"

/-- Creation SQL of the referenced table B of the two-table example. -/
def sqlB2 : String := "CREATE TABLE B (id INTEGER)"

/-- The two-table catalog. -/
def dbW : List (String × String) := [(("A"), sqlA2), (("B"), sqlB2)]

/-- PRAGMA_TABLE_INFO rows of a table with columns id, name. -/
def colsIdName : List ColInfo :=
  [⟨0, ("id"), ("INTEGER"), 0, none, 1⟩, ⟨1, ("name"), ("TEXT"), 0, none, 0⟩]

/-- The same two columns in the opposite order (so with swapped ordinal
positions), as PRAGMA_TABLE_INFO would report them for a target table whose
columns were declared in the other order. -/
def colsNameId : List ColInfo :=
  [⟨0, ("name"), ("TEXT"), 0, none, 0⟩, ⟨1, ("id"), ("INTEGER"), 0, none, 1⟩]

/-- A single-column schema for row-level examples. -/
def colsOne : List ColInfo := [⟨0, ("id"), ("INTEGER"), 0, none, 1⟩]

/-- Key function of a table whose primary key is the first column. -/
def keyHead : List Int → Option Int := List.head?

/-- Key function of a table with no primary or unique key. -/
def keyNone : List Int → Option Int := fun _ => none

/-- Termination measure of the `get_references` loop: the queue length plus
twice the number of candidate names not yet queued or recorded.  Popping
costs one, and every newly enqueued name permanently leaves the candidate
pool, so the measure strictly decreases at each iteration. -/
def grPhi (db : List (String × String)) (q r : List String) : Nat :=
  q.length + 2 * (((allCandidates db).toFinset).filter (fun n => n ∉ q ∧ n ∉ r)).card

/-- Loop invariant of `get_references` for reference graphs of depth one
(no referenced table has references of its own).  For every table X whose
creation SQL yields references: once X is recorded it is no longer queued,
it is queued at most once, and after its processing it occurs exactly once
in the references list with every referenced name occurring after it. -/
def GRInv (db : List (String × String)) (q r : List String) : Prop :=
  (∀ X, (∃ s, lookupSql db X = some s ∧ findall s ≠ []) → X ∈ r → X ∉ q) ∧
  (∀ X, (∃ s, lookupSql db X = some s ∧ findall s ≠ []) → List.count X q ≤ 1) ∧
  (∀ X s, lookupSql db X = some s → findall s ≠ [] → X ∈ r →
    (List.count X r = 1 ∧ ∀ Y ∈ findall s, List.Sublist [X, Y] r))

/-! ## Helper lemmas -/

theorem goodSymbol_eq (c : Char) :
    goodSymbol c = (c.isAlphanum || c == '_' || c == '-') := by
  unfold goodSymbol
  cases hd : c.isDigit <;> cases ha : c.isAlpha <;>
    simp [Char.isAlphanum, hd, ha]

theorem check_name_go_eq (nm : String) (l : List Char) :
    check_name_go nm l =
      if l.all goodSymbol then Except.ok ()
      else Except.error (("You shouldn't use the table name - ") ++ nm) := by
  induction l with
  | nil => simp [check_name_go]
  | cons c cs ih =>
    simp only [check_name_go, List.all_cons]
    by_cases h : goodSymbol c = true
    · simp [h, ih]
    · rw [Bool.not_eq_true] at h
      simp [h]

theorem filter_not_mem_isEmpty_iff (X Y : List ColInfo) :
    (X.filter (fun c => !(decide (c ∈ Y)))).isEmpty = true ↔ ∀ c ∈ X, c ∈ Y := by
  rw [List.isEmpty_iff, List.filter_eq_nil_iff]
  simp

theorem db_diff_ok_elim {α : Type} [DecidableEq α] {A B : List ColInfo}
    {s t l : List (List α)} (h : db_diff A B s t = Except.ok l) :
    l = diffList s t := by
  unfold db_diff at h
  by_cases hc : ((A.filter (fun c => !(decide (c ∈ B)))).isEmpty &&
      (B.filter (fun c => !(decide (c ∈ A)))).isEmpty) = true
  · rw [if_pos hc] at h
    exact (Except.ok.inj h).symm
  · rw [if_neg hc] at h
    cases h

theorem count_le_one_of_nodup {β : Type} [BEq β] [LawfulBEq β] {l : List β}
    (h : l.Nodup) (v : β) : l.count v ≤ 1 := by
  induction l with
  | nil => simp
  | cons a l ih =>
    rcases List.nodup_cons.mp h with ⟨ha, hl⟩
    rw [List.count_cons]
    by_cases hav : (a == v) = true
    · have hv : a = v := eq_of_beq hav
      subst hv
      simp [List.count_eq_zero.mpr ha]
    · rw [Bool.not_eq_true] at hav
      simp only [hav, if_false]
      simpa using ih hl

theorem mem_diffList {α : Type} [DecidableEq α] {s t : List (List α)}
    (hs : s.Nodup) (ht : t.Nodup) (v : List α) :
    v ∈ diffList s t ↔ (v ∈ s ∧ v ∉ t) := by
  have hcs : s.count v ≤ 1 := count_le_one_of_nodup hs v
  have hct : t.count v ≤ 1 := count_le_one_of_nodup ht v
  unfold diffList
  rw [List.mem_filter, List.mem_dedup, List.mem_append]
  constructor
  · rintro ⟨hmem, heq⟩
    rw [decide_eq_true_eq] at heq
    have hs1 : s.count v = 1 := by omega
    have ht0 : t.count v = 0 := by omega
    refine ⟨?_, ?_⟩
    · have : 0 < s.count v := by omega
      exact List.count_pos_iff.mp this
    · exact List.count_eq_zero.mp ht0
  · rintro ⟨hvs, hvt⟩
    have hs1 : s.count v = 1 :=
      Nat.le_antisymm hcs (List.count_pos_iff.mpr hvs)
    have ht0 : t.count v = 0 := List.count_eq_zero.mpr hvt
    refine ⟨Or.inr hvs, ?_⟩
    rw [decide_eq_true_eq]
    omega

/-! ## Claim theorems -/

/-- C9: check_name succeeds exactly when every character of the name is
alphanumeric, an underscore, or a hyphen; otherwise it raises an error whose
message carries the offending name. -/
theorem C9_check_name (table_name : String) :
    check_name table_name =
      if table_name.toList.all (fun c => c.isAlphanum || c == '_' || c == '-')
      then Except.ok ()
      else Except.error (("You shouldn't use the table name - ") ++ table_name) := by
  have hfun : goodSymbol = (fun c => c.isAlphanum || c == '_' || c == '-') :=
    funext goodSymbol_eq
  rw [check_name, check_name_go_eq, hfun]

/-- C10: when either the source or the target database path does not exist,
get_connection fails with a FileNotFoundError before acquiring any database
resource: the result is an error, so no connect or attach action is ever
produced. -/
theorem C10_missing_path (pathExists : String → Bool) (src tgt al : String)
    (h : pathExists src = false ∨ pathExists tgt = false) :
    ∃ msg, get_connection pathExists src tgt al = Except.error msg := by
  unfold get_connection
  rcases h with h | h
  · rw [h]
    exact ⟨_, rfl⟩
  · cases hs : pathExists src
    · exact ⟨_, rfl⟩
    · rw [h]
      exact ⟨_, rfl⟩

/-- Witness for C10 at a concrete missing-files filesystem. -/
theorem C10_witness :
    ∃ msg, get_connection (fun _ => false) ("db.sqlite") ("db_backup.sqlite")
      ("target_db") = Except.error msg :=
  C10_missing_path (fun _ => false) ("db.sqlite") ("db_backup.sqlite")
    ("target_db") (Or.inl rfl)

/-- C1 counterexample: two schemas with identical column-name sets, differing
only in column order (hence in the reported ordinal positions), on which
db_diff raises the schema-mismatch error instead of proceeding. -/
theorem C1_counterexample :
    (colsIdName.map ColInfo.name).toFinset = (colsNameId.map ColInfo.name).toFinset ∧
    db_diff colsIdName colsNameId ([] : List (List Int)) [] =
      Except.error (DiffError.schemaMismatch colsIdName colsNameId) := by
  constructor
  · decide
  · rfl

/-- C1 amended: db_diff's schema comparison succeeds exactly when the two
PRAGMA_TABLE_INFO results are equal as sets of full column descriptors
(ordinal position, name, declared type, notnull, default and pk included);
identical name sets with different order or types still raise. -/
theorem C1_amended {α : Type} [DecidableEq α] (A B : List ColInfo)
    (s t : List (List α)) :
    (∃ l, db_diff A B s t = Except.ok l) ↔ ((∀ c ∈ A, c ∈ B) ∧ (∀ c ∈ B, c ∈ A)) := by
  constructor
  · rintro ⟨l, hl⟩
    unfold db_diff at hl
    by_cases hc : ((A.filter (fun c => !(decide (c ∈ B)))).isEmpty &&
        (B.filter (fun c => !(decide (c ∈ A)))).isEmpty) = true
    · rw [Bool.and_eq_true] at hc
      exact ⟨(filter_not_mem_isEmpty_iff A B).mp hc.1,
             (filter_not_mem_isEmpty_iff B A).mp hc.2⟩
    · rw [if_neg hc] at hl
      cases hl
  · rintro ⟨h1, h2⟩
    refine ⟨diffList s t, ?_⟩
    unfold db_diff
    rw [if_pos]
    rw [Bool.and_eq_true]
    exact ⟨(filter_not_mem_isEmpty_iff A B).mpr h1,
           (filter_not_mem_isEmpty_iff B A).mpr h2⟩

/-- C2 counterexample: with matching schemas, an empty source table and a
target table holding the same row twice, db_diff returns that row even
though it does not occur in the source at all (the duplicated target rows
alone make the group's sum(db) equal to 2). -/
theorem C2_counterexample :
    db_diff colsOne colsOne ([] : List (List Int)) [[7], [7]] = Except.ok [[7]] ∧
    ([7] : List Int) ∉ ([] : List (List Int)) := by
  constructor
  · rfl
  · simp

/-- C2 amended: provided no row value occurs more than once in the source
copy nor more than once in the target copy of the table, every row db_diff
returns is present in the source and absent from the target, and every such
source-only row is returned. -/
theorem C2_amended {α : Type} [DecidableEq α] (A B : List ColInfo)
    (s t l : List (List α)) (hs : s.Nodup) (ht : t.Nodup)
    (hok : db_diff A B s t = Except.ok l) :
    ∀ v, v ∈ l ↔ (v ∈ s ∧ v ∉ t) := by
  intro v
  rw [db_diff_ok_elim hok]
  exact mem_diffList hs ht v

/-- Witness for C2 at a concrete one-row diff. -/
theorem C2_witness :
    (([1] : List Int) ∈ ([[1]] : List (List Int))) ↔
      ((([1] : List Int) ∈ ([[1]] : List (List Int))) ∧
       (([1] : List Int) ∉ ([] : List (List Int)))) :=
  C2_amended colsOne colsOne [[1]] [] [[1]] (by decide) (by decide) (by rfl) [1]

theorem executemany_isSome {α K : Type} [DecidableEq K] (ncols : Nat)
    (key : List α → Option K) (m : Nat) :
    ∀ (rs : List (List α)) (tbl : List (List α)) (r : List α), r ∈ rs →
      r.length ≠ ncols → (executemany ncols key tbl m rs).2.isSome = true := by
  intro rs
  induction rs with
  | nil => intro tbl r hr; cases hr
  | cons r0 rs ih =>
    intro tbl r hr hlen
    rw [executemany]
    by_cases h0 : r0.length ≠ m
    · simp [h0]
    · rw [if_neg h0]
      by_cases hm : m ≠ ncols
      · simp [hm]
      · rw [if_neg hm]
        push_neg at h0 hm
        rcases List.mem_cons.mp hr with hEq | hmem
        · subst hEq
          exact absurd (h0.trans hm) hlen
        · exact ih _ r hmem hlen

/-- C8 counterexample: on a two-column table, the batch [[1,2],[3]] raises
the arity error only after the first row has already been written: the
target goes from empty to [[1,2]], so a write was issued on this failure
path. -/
theorem C8_counterexample :
    copy_rows 2 keyNone ([] : List (List Int)) [[1, 2], [3]] =
      ([[1, 2]], some CopyError.bindingMismatch) ∧
    ([[1, 2]] : List (List Int)) ≠ [] := by
  constructor
  · rfl
  · simp

/-- C8 amended: copy_rows raises the empty-batch error on zero rows without
writing; a row whose length disagrees with the target's column count always
causes an error, and no write is issued when that row is the first one —
but when only a later row mismatches, the rows before it have already been
written when the error is raised. -/
theorem C8_amended {α K : Type} [DecidableEq K] (ncols : Nat)
    (key : List α → Option K) (tbl : List (List α)) :
    (copy_rows ncols key tbl [] = (tbl, some CopyError.emptyBatch)) ∧
    (∀ r0 rs, r0.length ≠ ncols →
      copy_rows ncols key tbl (r0 :: rs) = (tbl, some CopyError.operationalArity)) ∧
    (∀ rows r, r ∈ rows → r.length ≠ ncols →
      (copy_rows ncols key tbl rows).2.isSome = true) := by
  refine ⟨rfl, ?_, ?_⟩
  · intro r0 rs h
    rw [copy_rows, executemany]
    simp [h]
  · intro rows r hr hlen
    match rows with
    | [] => cases hr
    | r0 :: rs => exact executemany_isSome ncols key r0.length (r0 :: rs) tbl r hr hlen

/-- Witness for C8: the empty batch and a first-row arity mismatch on a
two-column table, both leaving the target untouched. -/
theorem C8_witness :
    copy_rows 2 keyNone ([] : List (List Int)) [] = ([], some CopyError.emptyBatch) ∧
    copy_rows 2 keyNone ([] : List (List Int)) [[9]] =
      ([], some CopyError.operationalArity) := by
  have h := C8_amended 2 keyNone ([] : List (List Int))
  exact ⟨h.1, h.2.1 [9] [] (by decide)⟩

/-- C3 counterexample: a database holding exactly the chain A→B→C whose
catalog lists the tables as C, B, A.  get_references returns
[C, C, A, B, B]; consuming it in reverse by first occurrence yields the
apply order [B, A, C], in which C does not precede B. -/
theorem C3_counterexample :
    findall sqlA = [("B")] ∧ findall sqlB = [("C")] ∧ findall sqlC = [] ∧
    get_references dbCBA (get_all_tables dbCBA) =
      GRes.ok [("C"), ("C"), ("A"), ("B"), ("B")] ∧
    applyOrderOf (get_references dbCBA (get_all_tables dbCBA)) =
      [("B"), ("A"), ("C")] ∧
    ¬ List.Sublist [("C"), ("B")] [("B"), ("A"), ("C")] := by
  refine ⟨by rfl, by rfl, by rfl, by rfl, by rfl, by decide⟩

/-- C3 amended: for the chain A→B→C, consuming get_references' output in
reverse (first occurrences of the reversed sequence) yields the apply order
C, B, A provided A precedes B in the table list handed to get_references —
in particular for the catalog orders A,B,C and A,C,B and C,A,B. -/
theorem C3_amended :
    applyOrderOf (get_references dbABC [("A"), ("B"), ("C")]) = [("C"), ("B"), ("A")] ∧
    applyOrderOf (get_references dbABC [("A"), ("C"), ("B")]) = [("C"), ("B"), ("A")] ∧
    applyOrderOf (get_references dbABC [("C"), ("A"), ("B")]) = [("C"), ("B"), ("A")] := by
  refine ⟨by rfl, by rfl, by rfl⟩

theorem conflicts_eq_true_iff {α K : Type} [DecidableEq K] (key : List α → Option K)
    (a b : List α) :
    conflicts key a b = true ↔ ((key a).isSome = true ∧ key a = key b) := by
  unfold conflicts
  cases key a <;> cases key b <;> simp

theorem conflicts_self {α K : Type} [DecidableEq K] (key : List α → Option K)
    (x : List α) (h : (key x).isSome = true) : conflicts key x x = true :=
  (conflicts_eq_true_iff key x x).mpr ⟨h, rfl⟩

theorem foldl_ior_decomp {α K : Type} [DecidableEq K] (key : List α → Option K) :
    ∀ (rs t : List (List α)),
      rs.foldl (insertOrReplace1 key) t =
        t.filter (fun x => rs.all (fun r => !(conflicts key x r))) ++
          rs.foldl (insertOrReplace1 key) [] := by
  intro rs
  induction rs with
  | nil => intro t; simp
  | cons r rs ih =>
    intro t
    rw [List.foldl_cons, ih (insertOrReplace1 key t r), List.foldl_cons,
      ih (insertOrReplace1 key [] r)]
    have h0 : insertOrReplace1 key [] r = [r] := rfl
    rw [h0]
    have h1 : insertOrReplace1 key t r = t.filter (fun x => !(conflicts key x r)) ++ [r] := rfl
    rw [h1, List.filter_append, List.filter_filter, List.append_assoc]
    congr 1
    apply List.filter_congr
    intro x _
    rw [List.all_cons, Bool.and_comm]

theorem mem_foldl_ior {α K : Type} [DecidableEq K] (key : List α → Option K) :
    ∀ (rs t : List (List α)) (x : List α),
      x ∈ rs.foldl (insertOrReplace1 key) t → x ∈ t ∨ x ∈ rs := by
  intro rs
  induction rs with
  | nil => intro t x h; exact Or.inl h
  | cons r rs ih =>
    intro t x h
    rw [List.foldl_cons] at h
    rcases ih _ x h with h1 | h1
    · rcases List.mem_append.mp h1 with h2 | h2
      · exact Or.inl (List.mem_of_mem_filter h2)
      · rw [List.mem_singleton] at h2
        subst h2
        exact Or.inr (List.mem_cons_self _ _)
    · exact Or.inr (List.mem_cons_of_mem _ h1)

theorem filter_self_filter {α : Type} (p : α → Bool) (u : List α) :
    (u.filter p).filter p = u.filter p := by
  rw [List.filter_filter]
  apply List.filter_congr
  intro a _
  rw [Bool.and_self]

theorem foldl_ior_idem {α K : Type} [DecidableEq K] (key : List α → Option K)
    (rows t : List (List α)) (hkeys : ∀ r ∈ rows, (key r).isSome = true) :
    rows.foldl (insertOrReplace1 key) (rows.foldl (insertOrReplace1 key) t) =
      rows.foldl (insertOrReplace1 key) t := by
  rw [foldl_ior_decomp key rows (rows.foldl (insertOrReplace1 key) t),
    foldl_ior_decomp key rows t, List.filter_append, filter_self_filter]
  have hF0 : (rows.foldl (insertOrReplace1 key) []).filter
      (fun x => rows.all (fun r => !(conflicts key x r))) = [] := by
    apply List.filter_eq_nil_iff.mpr
    intro x hx hall
    have hxr : x ∈ rows := by
      rcases mem_foldl_ior key rows [] x hx with h | h
      · cases h
      · exact h
    rw [List.all_eq_true] at hall
    have := hall x hxr
    rw [conflicts_self key x (hkeys x hxr)] at this
    cases this
  rw [hF0, List.append_nil]

theorem stepfun_eq {α : Type} (c : List α → Bool) :
    ∀ (rs : List (List α)) (init : List (List α)),
      rs.foldl (fun a y => if c y then [y] else a) init =
        ((rs.filter c).getLast?).elim init (fun w => [w]) := by
  intro rs
  induction rs with
  | nil => intro init; simp
  | cons y rs ih =>
    intro init
    rw [List.foldl_cons, ih]
    by_cases hy : c y = true
    · rw [if_pos hy, List.filter_cons_of_pos hy]
      cases hfe : rs.filter c with
      | nil => simp
      | cons b l =>
        rw [List.getLast?_cons_cons]
        cases hbl : (b :: l).getLast? with
        | none => exact absurd (List.getLast?_eq_none_iff.mp hbl) (by simp)
        | some w => rfl
    · rw [if_neg hy, List.filter_cons_of_neg (by simpa using hy)]

theorem filter_conflicts_foldl {α K : Type} [DecidableEq K] (key : List α → Option K)
    (w : List α) :
    ∀ (rs t₀ : List (List α)),
      (rs.foldl (insertOrReplace1 key) t₀).filter (fun x => conflicts key x w) =
        rs.foldl (fun a y => if conflicts key y w then [y] else a)
          (t₀.filter (fun x => conflicts key x w)) := by
  intro rs
  induction rs with
  | nil => intro t₀; simp
  | cons y rs ih =>
    intro t₀
    rw [List.foldl_cons, ih, List.foldl_cons]
    congr 1
    have h1 : insertOrReplace1 key t₀ y = t₀.filter (fun x => !(conflicts key x y)) ++ [y] := rfl
    rw [h1, List.filter_append, List.filter_filter]
    by_cases hy : conflicts key y w = true
    · rw [if_pos hy]
      have h2 : t₀.filter (fun x => conflicts key x w && !(conflicts key x y)) = [] := by
        apply List.filter_eq_nil_iff.mpr
        intro x _ hx
        rw [Bool.and_eq_true] at hx
        rcases hx with ⟨hxw, hxy⟩
        rcases (conflicts_eq_true_iff key x w).mp hxw with ⟨hsx, hxwk⟩
        rcases (conflicts_eq_true_iff key y w).mp hy with ⟨hsy, hywk⟩
        have : conflicts key x y = true :=
          (conflicts_eq_true_iff key x y).mpr ⟨hsx, hxwk.trans hywk.symm⟩
        rw [this] at hxy
        cases hxy
      rw [h2]
      simp [hy]
    · rw [if_neg hy]
      have h3 : (List.filter (fun x => conflicts key x w) [y]) = [] := by
        simp [List.filter_cons, Bool.of_not_eq_true hy]
      rw [h3, List.append_nil]
      apply List.filter_congr
      intro x _
      by_cases hxw : conflicts key x w = true
      · have hxy : conflicts key x y = false := by
          rcases (conflicts_eq_true_iff key x w).mp hxw with ⟨hsx, hxwk⟩
          by_contra hcon
          rw [Bool.not_eq_false] at hcon
          rcases (conflicts_eq_true_iff key x y).mp hcon with ⟨_, hxyk⟩
          have hsy : (key y).isSome = true := by
            rw [← hxyk]
            exact hsx
          exact absurd ((conflicts_eq_true_iff key y w).mpr
            ⟨hsy, hxyk.symm.trans hxwk⟩) (by simpa using hy)
        rw [hxw, hxy]
        rfl
      · rw [Bool.not_eq_true] at hxw
        rw [hxw]
        rfl

theorem exec_ok_result {α K : Type} [DecidableEq K] (ncols : Nat)
    (key : List α → Option K) (m : Nat) :
    ∀ (rs t : List (List α)), (∀ r ∈ rs, r.length = m) → m = ncols →
      executemany ncols key t m rs = (rs.foldl (insertOrReplace1 key) t, none) := by
  intro rs
  induction rs with
  | nil => intro t _ _; rfl
  | cons r rs ih =>
    intro t hlen hm
    rw [executemany, if_neg (by simp [hlen r (List.mem_cons_self _ _)]),
      if_neg (by simp [hm]), List.foldl_cons]
    exact ih _ (fun x hx => hlen x (List.mem_cons_of_mem _ hx)) hm

/-- C7: for a table with a primary or unique key, copy_rows is idempotent:
applying the same non-empty, well-arity batch twice leaves the target in the
state reached after one application, and for each applied row exactly one
row with its key survives, namely the last batch row carrying that key. -/
theorem C7_copy_idempotent {α K : Type} [DecidableEq K] (ncols : Nat)
    (key : List α → Option K) (tbl rows : List (List α)) (hne : rows ≠ [])
    (hkeys : ∀ r ∈ rows, (key r).isSome = true)
    (harity : ∀ r ∈ rows, r.length = ncols) :
    ∃ t1, copy_rows ncols key tbl rows = (t1, none) ∧
      copy_rows ncols key t1 rows = (t1, none) ∧
      ∀ r ∈ rows, t1.filter (fun x => conflicts key x r) =
        ((rows.filter (fun x => conflicts key x r)).getLast?).elim [] (fun w => [w]) := by
  refine ⟨rows.foldl (insertOrReplace1 key) tbl, ?_, ?_, ?_⟩
  · match rows, hne with
    | r0 :: rs, _ =>
      rw [copy_rows]
      have hm : r0.length = ncols := harity r0 (List.mem_cons_self _ _)
      exact exec_ok_result ncols key r0.length (r0 :: rs) tbl
        (fun r hr => (harity r hr).trans hm.symm) hm
  · match rows, hne with
    | r0 :: rs, _ =>
      rw [copy_rows]
      have hm : r0.length = ncols := harity r0 (List.mem_cons_self _ _)
      rw [exec_ok_result ncols key r0.length (r0 :: rs)
        ((r0 :: rs).foldl (insertOrReplace1 key) tbl)
        (fun r hr => (harity r hr).trans hm.symm) hm]
      rw [foldl_ior_idem key (r0 :: rs) tbl hkeys]
  · intro r hr
    rw [filter_conflicts_foldl key r rows tbl, stepfun_eq]
    have hne2 : rows.filter (fun x => conflicts key x r) ≠ [] := by
      intro hnil
      have : r ∈ rows.filter (fun x => conflicts key x r) :=
        List.mem_filter.mpr ⟨hr, conflicts_self key r (hkeys r hr)⟩
      rw [hnil] at this
      cases this
    cases hlast : (rows.filter (fun x => conflicts key x r)).getLast? with
    | none => exact absurd (List.getLast?_eq_none_iff.mp hlast) hne2
    | some w => rfl

/-- Witness for C7: a two-row batch sharing one primary key on a two-column
table keyed by its first column. -/
theorem C7_witness :
    ∃ t1, copy_rows 2 keyHead ([] : List (List Int)) [[1, 10], [1, 20]] = (t1, none) ∧
      copy_rows 2 keyHead t1 [[1, 10], [1, 20]] = (t1, none) ∧
      ∀ r ∈ ([[1, 10], [1, 20]] : List (List Int)),
        t1.filter (fun x => conflicts keyHead x r) =
          ((([[1, 10], [1, 20]] : List (List Int)).filter
            (fun x => conflicts keyHead x r)).getLast?).elim [] (fun w => [w]) :=
  C7_copy_idempotent 2 keyHead [] [[1, 10], [1, 20]] (by decide) (by decide) (by decide)

theorem foldl_ior_of_pairwise {α K : Type} [DecidableEq K] (key : List α → Option K) :
    ∀ (l : List (List α)), l.Nodup →
      (∀ a ∈ l, ∀ b ∈ l, a ≠ b → conflicts key a b = false) →
      l.foldl (insertOrReplace1 key) [] = l := by
  intro l
  induction l with
  | nil => intro _ _; rfl
  | cons r l ih =>
    intro hnd hpw
    rw [List.foldl_cons]
    have h0 : insertOrReplace1 key [] r = [r] := rfl
    rw [h0, foldl_ior_decomp key l [r]]
    have hF0 : l.foldl (insertOrReplace1 key) [] = l :=
      ih (List.nodup_cons.mp hnd).2
        (fun a ha b hb => hpw a (List.mem_cons_of_mem _ ha) b (List.mem_cons_of_mem _ hb))
    rw [hF0]
    have hall : (l.all (fun q => !(conflicts key r q))) = true := by
      rw [List.all_eq_true]
      intro q hq
      have hne : r ≠ q := by
        rintro rfl
        exact (List.nodup_cons.mp hnd).1 hq
      rw [hpw r (List.mem_cons_self _ _) q (List.mem_cons_of_mem _ hq) hne]
      rfl
    have hr : ([r].filter (fun x => l.all (fun q => !(conflicts key x q)))) = [r] := by
      simp [List.filter_cons, hall]
    rw [hr]
    rfl

theorem exec_none_result {α K : Type} [DecidableEq K] (ncols : Nat)
    (key : List α → Option K) (m : Nat) :
    ∀ (rs tbl tend : List (List α)), executemany ncols key tbl m rs = (tend, none) →
      tend = rs.foldl (insertOrReplace1 key) tbl := by
  intro rs
  induction rs with
  | nil =>
    intro tbl tend h
    rw [executemany] at h
    simp only [Prod.mk.injEq] at h
    exact h.1.symm
  | cons r rs ih =>
    intro tbl tend h
    rw [executemany] at h
    by_cases h1 : r.length ≠ m
    · rw [if_pos h1] at h
      simp at h
    · rw [if_neg h1] at h
      by_cases h2 : m ≠ ncols
      · rw [if_pos h2] at h
        simp at h
      · rw [if_neg h2] at h
        rw [List.foldl_cons]
        exact ih _ _ h

theorem copy_rows_none_result {α K : Type} [DecidableEq K] {ncols : Nat}
    {key : List α → Option K} {tbl rows tend : List (List α)}
    (h : copy_rows ncols key tbl rows = (tend, none)) :
    tend = rows.foldl (insertOrReplace1 key) tbl := by
  match rows with
  | [] =>
    rw [copy_rows] at h
    simp at h
  | r0 :: rs =>
    rw [copy_rows] at h
    exact exec_none_result ncols key r0.length (r0 :: rs) tbl tend h

theorem db_diff_cond_of_ok {α : Type} [DecidableEq α] {A B : List ColInfo}
    {s t l : List (List α)} (h : db_diff A B s t = Except.ok l) :
    ((A.filter (fun c => !(decide (c ∈ B)))).isEmpty &&
     (B.filter (fun c => !(decide (c ∈ A)))).isEmpty) = true := by
  by_contra hc
  unfold db_diff at h
  rw [if_neg hc] at h
  cases h

theorem db_diff_eq_of_cond {α : Type} [DecidableEq α] {A B : List ColInfo}
    (hcond : ((A.filter (fun c => !(decide (c ∈ B)))).isEmpty &&
      (B.filter (fun c => !(decide (c ∈ A)))).isEmpty) = true)
    (s t : List (List α)) :
    db_diff A B s t = Except.ok (diffList s t) := by
  unfold db_diff
  rw [if_pos hcond]

/-- C6: sync is idempotent at the diff level.  For a table whose two copies
each hold no duplicate full rows and whose source rows satisfy the target's
unique-key constraint, running db_diff, applying the returned rows with
copy_rows, and running db_diff again yields the empty diff. -/
theorem C6_second_diff_empty {α K : Type} [DecidableEq α] [DecidableEq K]
    (ncols : Nat) (key : List α → Option K) (A B : List ColInfo)
    (s t l tend : List (List α))
    (hs : s.Nodup) (ht : t.Nodup)
    (hpw : ∀ v ∈ s, ∀ w ∈ s, v ≠ w → conflicts key v w = false)
    (hd : db_diff A B s t = Except.ok l) (_hne : l ≠ [])
    (hc : copy_rows ncols key t l = (tend, none)) :
    db_diff A B s tend = Except.ok [] := by
  have hl := db_diff_ok_elim hd
  have hmem : ∀ v, v ∈ l ↔ (v ∈ s ∧ v ∉ t) := by
    intro v
    rw [hl]
    exact mem_diffList hs ht v
  have hlnd : l.Nodup := by
    rw [hl]
    exact (List.nodup_dedup _).filter _
  have hlpw : ∀ a ∈ l, ∀ b ∈ l, a ≠ b → conflicts key a b = false := by
    intro a ha b hb hab
    exact hpw a ((hmem a).mp ha).1 b ((hmem b).mp hb).1 hab
  have htend : tend = l.foldl (insertOrReplace1 key) t := copy_rows_none_result hc
  rw [db_diff_eq_of_cond (db_diff_cond_of_ok hd) s tend]
  congr 1
  unfold diffList
  apply List.filter_eq_nil_iff.mpr
  intro v _ hv
  rw [decide_eq_true_eq] at hv
  have hdecomp : tend.count v =
      (t.filter (fun x => l.all (fun r => !(conflicts key x r)))).count v + l.count v := by
    rw [htend, foldl_ior_decomp key l t, List.count_append,
      foldl_ior_of_pairwise key l hlnd hlpw]
  rw [hdecomp] at hv
  have hcs : s.count v ≤ 1 := count_le_one_of_nodup hs v
  have hct : t.count v ≤ 1 := count_le_one_of_nodup ht v
  have hcl : l.count v ≤ 1 := count_le_one_of_nodup hlnd v
  have hcf : (t.filter (fun x => l.all (fun r => !(conflicts key x r)))).count v ≤ t.count v :=
    (List.filter_sublist _).count_le v
  by_cases hvs : v ∈ s
  · by_cases hvt : v ∈ t
    · have hvl : v ∉ l := fun hin => ((hmem v).mp hin).2 hvt
      have hcl0 : l.count v = 0 := List.count_eq_zero.mpr hvl
      have hP : (l.all (fun r => !(conflicts key v r))) = true := by
        rw [List.all_eq_true]
        intro w hw
        have hws : w ∈ s := ((hmem w).mp hw).1
        have hwnt : w ∉ t := ((hmem w).mp hw).2
        have hvw : v ≠ w := fun hEq => hwnt (hEq ▸ hvt)
        rw [hpw v hvs w hws hvw]
        rfl
      have hcf1 : (t.filter (fun x => l.all (fun r => !(conflicts key x r)))).count v =
          t.count v := List.count_filter hP
      have hct1 : t.count v = 1 := Nat.le_antisymm hct (List.count_pos_iff.mpr hvt)
      have hcs1 : s.count v = 1 := Nat.le_antisymm hcs (List.count_pos_iff.mpr hvs)
      omega
    · have hvl : v ∈ l := (hmem v).mpr ⟨hvs, hvt⟩
      have hct0 : t.count v = 0 := List.count_eq_zero.mpr hvt
      have hcl1 : l.count v = 1 := Nat.le_antisymm hcl (List.count_pos_iff.mpr hvl)
      have hcs1 : s.count v = 1 := Nat.le_antisymm hcs (List.count_pos_iff.mpr hvs)
      omega
  · have hcs0 : s.count v = 0 := List.count_eq_zero.mpr hvs
    have hvl : v ∉ l := fun hin => hvs ((hmem v).mp hin).1
    have hcl0 : l.count v = 0 := List.count_eq_zero.mpr hvl
    omega

/-- Witness for C6: one new source row synced into an empty target; the
second diff is empty. -/
theorem C6_witness :
    db_diff colsIdName colsIdName ([[1, 10]] : List (List Int)) [[1, 10]] =
      Except.ok [] :=
  C6_second_diff_empty 2 keyHead colsIdName colsIdName [[1, 10]] [] [[1, 10]] [[1, 10]]
    (by decide) (by decide) (by decide) (by rfl) (by decide) (by rfl)

theorem lookupSql_mem : ∀ (db : List (String × String)) (t sql : String),
    lookupSql db t = some sql → (t, sql) ∈ db := by
  intro db
  induction db with
  | nil => intro t sql h; cases h
  | cons p rest ih =>
    intro t sql h
    rw [lookupSql] at h
    by_cases hp : p.1 = t
    · rw [if_pos hp] at h
      have hs : p.2 = sql := Option.some.inj h
      have : p = (t, sql) := by
        cases p
        simp only at hp hs
        rw [hp, hs]
      rw [← this]
      exact List.mem_cons_self _ _
    · rw [if_neg hp] at h
      exact List.mem_cons_of_mem _ (ih t sql h)

theorem findall_subset_allCandidates {db : List (String × String)} {t sql : String}
    (h : lookupSql db t = some sql) :
    ∀ n ∈ findall sql, n ∈ allCandidates db := by
  intro n hn
  unfold allCandidates
  rw [List.mem_flatten]
  exact ⟨findall sql, List.mem_map.mpr ⟨(t, sql), lookupSql_mem db t sql h, rfl⟩, hn⟩

theorem mem_pullToEnd_append (r : List String) (n x : String) :
    x ∈ pullToEnd r n ++ [n] ↔ (x ∈ r ∨ x = n) := by
  unfold pullToEnd
  simp only [List.mem_append, List.mem_filter, List.mem_singleton,
    decide_eq_true_eq]
  constructor
  · rintro ((⟨hr, _⟩ | ⟨hr, _⟩) | hEq)
    · exact Or.inl hr
    · exact Or.inl hr
    · exact Or.inr hEq
  · rintro (hr | hEq)
    · by_cases hxn : x = n
      · exact Or.inr hxn
      · exact Or.inl (Or.inl ⟨hr, hxn⟩)
    · exact Or.inr hEq

theorem mem_processOne_snd (qr : List String × List String) (n x : String) :
    x ∈ (processOne qr n).2 ↔ (x ∈ qr.2 ∨ x = n) := by
  unfold processOne
  split_ifs with h1 h2
  · exact mem_pullToEnd_append qr.2 n x
  · simp
  · simp

theorem processOne_phi_le (db : List (String × String))
    (qr : List String × List String) (n : String)
    (hn : n ∈ (allCandidates db).toFinset) :
    grPhi db (processOne qr n).1 (processOne qr n).2 ≤ grPhi db qr.1 qr.2 := by
  obtain ⟨q, r⟩ := qr
  unfold grPhi processOne
  split_ifs with h1 h2
  · simp only
    have hfe : ((allCandidates db).toFinset).filter
        (fun m => m ∉ q ∧ m ∉ (pullToEnd r n ++ [n])) =
        ((allCandidates db).toFinset).filter (fun m => m ∉ q ∧ m ∉ r) := by
      apply Finset.filter_congr
      intro x _
      rw [mem_pullToEnd_append]
      constructor
      · rintro ⟨hq, hr⟩
        exact ⟨hq, fun hmem => hr (Or.inl hmem)⟩
      · rintro ⟨hq, hr⟩
        refine ⟨hq, ?_⟩
        rintro (hmem | hEq)
        · exact hr hmem
        · subst hEq
          exact hr h1
    rw [hfe]
  · simp only
    have hcard : (((allCandidates db).toFinset).filter
        (fun m => m ∉ q ∧ m ∉ (r ++ [n]))).card ≤
        (((allCandidates db).toFinset).filter (fun m => m ∉ q ∧ m ∉ r)).card := by
      apply Finset.card_le_card
      intro x hx
      rw [Finset.mem_filter] at hx ⊢
      refine ⟨hx.1, hx.2.1, fun hmem => hx.2.2 ?_⟩
      rw [List.mem_append]
      exact Or.inl hmem
    omega
  · simp only
    have hfe : ((allCandidates db).toFinset).filter
        (fun m => m ∉ (q ++ [n]) ∧ m ∉ (r ++ [n])) =
        (((allCandidates db).toFinset).filter (fun m => m ∉ q ∧ m ∉ r)).erase n := by
      apply Finset.ext
      intro x
      rw [Finset.mem_erase, Finset.mem_filter, Finset.mem_filter]
      simp only [List.mem_append, List.mem_singleton]
      constructor
      · rintro ⟨hc, hq, hr⟩
        have hxn : x ≠ n := fun hEq => hq (Or.inr hEq)
        exact ⟨hxn, hc, fun hmem => hq (Or.inl hmem), fun hmem => hr (Or.inl hmem)⟩
      · rintro ⟨hxn, hc, hq, hr⟩
        refine ⟨hc, ?_, ?_⟩
        · rintro (hmem | hEq)
          · exact hq hmem
          · exact hxn hEq
        · rintro (hmem | hEq)
          · exact hr hmem
          · exact hxn hEq
    have hmemf : n ∈ ((allCandidates db).toFinset).filter (fun m => m ∉ q ∧ m ∉ r) :=
      Finset.mem_filter.mpr ⟨hn, h2, h1⟩
    have hpos : 1 ≤ (((allCandidates db).toFinset).filter
        (fun m => m ∉ q ∧ m ∉ r)).card :=
      Finset.card_pos.mpr ⟨n, hmemf⟩
    have herase := Finset.card_erase_of_mem hmemf
    rw [hfe, herase]
    rw [List.length_append, List.length_singleton]
    omega

theorem processNames_eta (names : List String) (p : List String × List String) :
    processNames names p.1 p.2 = names.foldl processOne p := by
  unfold processNames
  rw [Prod.mk.eta]

theorem processNames_phi_le (db : List (String × String)) :
    ∀ (names : List String) (q r : List String),
      (∀ n ∈ names, n ∈ (allCandidates db).toFinset) →
      grPhi db (processNames names q r).1 (processNames names q r).2 ≤ grPhi db q r := by
  intro names
  induction names with
  | nil => intro q r _; exact le_refl _
  | cons n names ih =>
    intro q r hmem
    have h1 : processNames (n :: names) q r =
        processNames names (processOne (q, r) n).1 (processOne (q, r) n).2 := by
      rw [processNames_eta names (processOne (q, r) n)]
      rfl
    rw [h1]
    exact le_trans (ih _ _ (fun m hm => hmem m (List.mem_cons_of_mem _ hm)))
      (processOne_phi_le db (q, r) n (hmem n (List.mem_cons_self _ _)))

theorem grPhi_tail_le (db : List (String × String)) (t : String)
    (rest r : List String) :
    grPhi db rest (if t ∈ r then r else r ++ [t]) + 1 ≤ grPhi db (t :: rest) r := by
  unfold grPhi
  have htin : t ∈ (if t ∈ r then r else r ++ [t]) := by
    split_ifs with h
    · exact h
    · rw [List.mem_append]
      exact Or.inr (List.mem_singleton.mpr rfl)
  have hsub : ((allCandidates db).toFinset).filter
      (fun m => m ∉ rest ∧ m ∉ (if t ∈ r then r else r ++ [t])) ⊆
      ((allCandidates db).toFinset).filter (fun m => m ∉ (t :: rest) ∧ m ∉ r) := by
    intro x hx
    rw [Finset.mem_filter] at hx ⊢
    rcases hx with ⟨hc, hrest, hr1⟩
    have hxt : x ≠ t := fun hEq => hr1 (hEq ▸ htin)
    refine ⟨hc, ?_, ?_⟩
    · rw [List.mem_cons]
      rintro (hEq | hmem)
      · exact hxt hEq
      · exact hrest hmem
    · intro hmem
      apply hr1
      split_ifs with h
      · exact hmem
      · rw [List.mem_append]
        exact Or.inl hmem
  have hcard := Finset.card_le_card hsub
  rw [List.length_cons]
  omega

theorem grRun_zero (db : List (String × String)) (q r : List String) :
    grRun db 0 q r = if q.isEmpty then GRes.ok r else GRes.outOfFuel := rfl

theorem grRun_succ_nil (db : List (String × String)) (fuel : Nat) (r : List String) :
    grRun db (fuel + 1) [] r = GRes.ok r := rfl

theorem grRun_succ_cons (db : List (String × String)) (fuel : Nat) (t : String)
    (rest r : List String) :
    grRun db (fuel + 1) (t :: rest) r =
      match lookupSql db t with
      | none => GRes.typeError t
      | some sql =>
        grRun db fuel
          (processNames (findall sql) rest (if t ∈ r then r else r ++ [t])).1
          (processNames (findall sql) rest (if t ∈ r then r else r ++ [t])).2 := rfl

theorem grRun_no_fuel_out (db : List (String × String)) :
    ∀ (fuel : Nat) (q r : List String),
      grPhi db q r ≤ fuel → grRun db fuel q r ≠ GRes.outOfFuel := by
  intro fuel
  induction fuel with
  | zero =>
    intro q r hphi
    have hq : q = [] := by
      have : q.length = 0 := by
        unfold grPhi at hphi
        omega
      exact List.length_eq_zero.mp this
    subst hq
    rw [grRun_zero]
    simp
  | succ fuel ih =>
    intro q r hphi
    match q with
    | [] =>
      rw [grRun_succ_nil]
      intro h
      cases h
    | t :: rest =>
      rw [grRun_succ_cons]
      cases hlook : lookupSql db t with
      | none =>
        intro h
        cases h
      | some sql =>
        apply ih
        have hnames : ∀ n ∈ findall sql, n ∈ (allCandidates db).toFinset := by
          intro n hnmem
          rw [List.mem_toFinset]
          exact findall_subset_allCandidates hlook n hnmem
        have h1 := processNames_phi_le db (findall sql) rest
          (if t ∈ r then r else r ++ [t]) hnames
        have h2 := grPhi_tail_le db t rest r
        omega

/-- C5: get_references terminates on every finite input, cycles and
self-references included: run with the fuel budget of the wrapper (which is
what `get_references` does), the loop never exhausts it, because every
candidate name is enqueued at most once and a popped table is never
re-enqueued.  A reference to a table missing from the catalog terminates too,
with the TypeError the Python code raises on `sql[0]`. -/
theorem C5_terminates (db : List (String × String)) (tables : List String) :
    get_references db tables ≠ GRes.outOfFuel := by
  unfold get_references
  apply grRun_no_fuel_out
  unfold grPhi
  have := Finset.card_filter_le ((allCandidates db).toFinset)
    (fun n => n ∉ tables ∧ n ∉ ([] : List String))
  omega

theorem count_processOne_snd {x n : String} (qr : List String × List String)
    (hxn : x ≠ n) :
    List.count x (processOne qr n).2 = List.count x qr.2 := by
  have hsing : List.count x [n] = 0 := by
    rw [List.count_singleton]
    simp [beq_eq_false_iff_ne.mpr (Ne.symm hxn)]
  unfold processOne
  split_ifs with h1 h2
  · unfold pullToEnd
    rw [List.append_assoc, List.count_append, List.count_append, hsing]
    have hne : List.count x (qr.2.filter (fun y => decide (y ≠ n))) = List.count x qr.2 :=
      List.count_filter (by simp [hxn])
    have heq : List.count x (qr.2.filter (fun y => decide (y = n))) = 0 := by
      rw [List.count_eq_zero]
      intro hmem
      rcases List.mem_filter.mp hmem with ⟨_, hdec⟩
      exact hxn (of_decide_eq_true hdec)
    omega
  · rw [List.count_append, hsing]
    omega
  · rw [List.count_append, hsing]
    omega

theorem sublist_processOne_snd {X Y n : String} (qr : List String × List String)
    (hXn : X ≠ n) (hsub : List.Sublist [X, Y] qr.2) :
    List.Sublist [X, Y] (processOne qr n).2 := by
  have hXr : X ∈ qr.2 := hsub.subset (by simp)
  unfold processOne
  split_ifs with h1 h2
  · unfold pullToEnd
    by_cases hYn : Y = n
    · subst hYn
      have h2a : List.Sublist [X] (qr.2.filter (fun y => decide (y ≠ Y))) := by
        rw [List.singleton_sublist, List.mem_filter]
        exact ⟨hXr, by simp [hXn]⟩
      have h2b : List.Sublist [X]
          (qr.2.filter (fun y => decide (y ≠ Y)) ++ qr.2.filter (fun y => decide (y = Y))) :=
        h2a.trans (List.sublist_append_left _ _)
      have h3 := List.Sublist.append h2b (List.Sublist.refl [Y])
      simpa using h3
    · have hkeep : ([X, Y].filter (fun y => decide (y ≠ n))) = [X, Y] := by
        simp [hXn, hYn]
      have hfil : List.Sublist [X, Y] (qr.2.filter (fun y => decide (y ≠ n))) := by
        have := hsub.filter (fun y => decide (y ≠ n))
        rw [hkeep] at this
        exact this
      exact (hfil.trans (List.sublist_append_left _ _)).trans
        (List.sublist_append_left _ _)
  · exact hsub.trans (List.sublist_append_left _ _)
  · exact hsub.trans (List.sublist_append_left _ _)

theorem sublist_new_processOne_snd {X n : String} (qr : List String × List String)
    (hXr : X ∈ qr.2) (hXn : X ≠ n) :
    List.Sublist [X, n] (processOne qr n).2 := by
  unfold processOne
  split_ifs with h1 h2
  · unfold pullToEnd
    have h2a : List.Sublist [X]
        (qr.2.filter (fun y => decide (y ≠ n)) ++ qr.2.filter (fun y => decide (y = n))) := by
      rw [List.singleton_sublist, List.mem_append]
      exact Or.inl (List.mem_filter.mpr ⟨hXr, by simp [hXn]⟩)
    have h3 := List.Sublist.append h2a (List.Sublist.refl [n])
    simpa using h3
  · have h3 := List.Sublist.append (List.singleton_sublist.mpr hXr) (List.Sublist.refl [n])
    simpa using h3
  · have h3 := List.Sublist.append (List.singleton_sublist.mpr hXr) (List.Sublist.refl [n])
    simpa using h3

theorem processOne_fst_append (qr : List String × List String) (n : String) :
    (processOne qr n).1 = qr.1 ∨ (processOne qr n).1 = qr.1 ++ [n] := by
  unfold processOne
  split_ifs <;> simp

theorem processNames_cons (n : String) (names : List String) (q r : List String) :
    processNames (n :: names) q r =
      processNames names (processOne (q, r) n).1 (processOne (q, r) n).2 := by
  rw [processNames_eta names (processOne (q, r) n)]
  rfl

theorem processNames_snd_mem : ∀ (names q r : List String) (x : String),
    x ∈ (processNames names q r).2 ↔ (x ∈ r ∨ x ∈ names) := by
  intro names
  induction names with
  | nil => intro q r x; simp [processNames]
  | cons n names ih =>
    intro q r x
    rw [processNames_cons, ih, mem_processOne_snd]
    simp only [List.mem_cons]
    tauto

theorem processNames_fst_extra : ∀ (names q r : List String),
    ∃ extra, (processNames names q r).1 = q ++ extra ∧ ∀ e ∈ extra, e ∈ names := by
  intro names
  induction names with
  | nil =>
    intro q r
    exact ⟨[], by simp [processNames], by simp⟩
  | cons n names ih =>
    intro q r
    rw [processNames_cons]
    rcases processOne_fst_append (q, r) n with hfst | hfst
    · rw [hfst]
      rcases ih (q, r).1 (processOne (q, r) n).2 with ⟨extra, hext, hmem⟩
      exact ⟨extra, hext, fun e he => List.mem_cons_of_mem _ (hmem e he)⟩
    · rw [hfst]
      rcases ih ((q, r).1 ++ [n]) (processOne (q, r) n).2 with ⟨extra, hext, hmem⟩
      refine ⟨[n] ++ extra, ?_, ?_⟩
      · rw [hext, List.append_assoc]
      · intro e he
        rcases List.mem_append.mp he with he | he
        · rw [List.mem_singleton] at he
          subst he
          exact List.mem_cons_self _ _
        · exact List.mem_cons_of_mem _ (hmem e he)

theorem processNames_track (X : String) :
    ∀ (names q r : List String) (P : String → Prop),
      (∀ n ∈ names, n ≠ X) →
      List.count X r = 1 →
      (∀ Y, P Y → List.Sublist [X, Y] r) →
      (List.count X (processNames names q r).2 = 1 ∧
       ∀ Y, (P Y ∨ Y ∈ names) → List.Sublist [X, Y] (processNames names q r).2) := by
  intro names
  induction names with
  | nil =>
    intro q r P _ hcount hP
    refine ⟨by simpa [processNames] using hcount, ?_⟩
    intro Y hY
    rcases hY with hY | hY
    · simpa [processNames] using hP Y hY
    · cases hY
  | cons n names ih =>
    intro q r P hn hcount hP
    rw [processNames_cons]
    have hXn : X ≠ n := Ne.symm (hn n (List.mem_cons_self _ _))
    have hXr : X ∈ r := List.count_pos_iff.mp (by omega)
    have hcount1 : List.count X (processOne (q, r) n).2 = 1 := by
      rw [count_processOne_snd (q, r) hXn]
      exact hcount
    have hP1 : ∀ Y, (P Y ∨ Y = n) → List.Sublist [X, Y] (processOne (q, r) n).2 := by
      intro Y hY
      rcases hY with hY | hY
      · exact sublist_processOne_snd (q, r) hXn (hP Y hY)
      · subst hY
        exact sublist_new_processOne_snd (q, r) hXr hXn
    have hrec := ih (processOne (q, r) n).1 (processOne (q, r) n).2
      (fun Y => P Y ∨ Y = n) (fun m hm => hn m (List.mem_cons_of_mem _ hm)) hcount1 hP1
    refine ⟨hrec.1, ?_⟩
    intro Y hY
    apply hrec.2
    rcases hY with hY | hY
    · exact Or.inl (Or.inl hY)
    · rcases List.mem_cons.mp hY with hEq | hmem
      · exact Or.inl (Or.inr hEq)
      · exact Or.inr hmem

theorem grRun_invariant (db : List (String × String))
    (hdepth : ∀ p ∈ db, ∀ Z ∈ findall p.2, ∀ pq ∈ db, pq.1 = Z → findall pq.2 = []) :
    ∀ (fuel : Nat) (q r out : List String),
      GRInv db q r →
      grRun db fuel q r = GRes.ok out →
      ∀ X sqlX, lookupSql db X = some sqlX → findall sqlX ≠ [] → X ∈ out →
        List.count X out = 1 ∧ ∀ Y ∈ findall sqlX, List.Sublist [X, Y] out := by
  intro fuel
  induction fuel with
  | zero =>
    intro q r out hinv hrun
    rw [grRun_zero] at hrun
    by_cases hq : q.isEmpty = true
    · rw [if_pos hq] at hrun
      obtain rfl : r = out := GRes.ok.inj hrun
      exact fun X sqlX hlX hne hmem => hinv.2.2 X sqlX hlX hne hmem
    · rw [if_neg hq] at hrun
      cases hrun
  | succ fuel ih =>
    intro q r out hinv hrun
    cases q with
    | nil =>
      rw [grRun_succ_nil] at hrun
      obtain rfl : r = out := GRes.ok.inj hrun
      exact fun X sqlX hlX hne hmem => hinv.2.2 X sqlX hlX hne hmem
    | cons t rest =>
      obtain ⟨hinvA, hinvB, hinvC⟩ := hinv
      rw [grRun_succ_cons] at hrun
      cases hlook : lookupSql db t with
      | none =>
        rw [hlook] at hrun
        cases hrun
      | some sqlT =>
        rw [hlook] at hrun
        set nm := findall sqlT with hnmdef
        set r1 := if t ∈ r then r else r ++ [t] with hr1def
        have hF1 : ∀ n ∈ nm, ∀ sqlN, lookupSql db n = some sqlN → findall sqlN = [] := by
          intro n hn sqlN hlN
          exact hdepth (t, sqlT) (lookupSql_mem db t sqlT hlook) n hn (n, sqlN)
            (lookupSql_mem db n sqlN hlN) rfl
        have hnotEF_nm : ∀ n ∈ nm, ¬(∃ s, lookupSql db n = some s ∧ findall s ≠ []) := by
          rintro n hn ⟨s, hls, hne⟩
          exact hne (hF1 n hn s hls)
        have hr1t : t ∈ r1 := by
          rw [hr1def]
          split_ifs with h
          · exact h
          · rw [List.mem_append]
            exact Or.inr (List.mem_singleton.mpr rfl)
        have hr1mem1 : ∀ x, x ∈ r1 → (x ∈ r ∨ x = t) := by
          intro x hx
          rw [hr1def] at hx
          split_ifs at hx with h
          · exact Or.inl hx
          · rcases List.mem_append.mp hx with hx | hx
            · exact Or.inl hx
            · exact Or.inr (List.mem_singleton.mp hx)
        have hr1mem2 : ∀ x, x ∈ r → x ∈ r1 := by
          intro x hx
          rw [hr1def]
          split_ifs with h
          · exact hx
          · rw [List.mem_append]
            exact Or.inl hx
        obtain ⟨extra, hq2, hextra⟩ := processNames_fst_extra nm rest r1
        refine ih _ _ out ⟨?_, ?_, ?_⟩ hrun
        · -- a recorded edge table is no longer queued
          intro X hEF hXr2
          have hXnotnm : X ∉ nm := fun hmem => hnotEF_nm X hmem hEF
          have hXr1 : X ∈ r1 :=
            ((processNames_snd_mem nm rest r1 X).mp hXr2).resolve_right hXnotnm
          rw [hq2, List.mem_append]
          rintro (hXrest | hXextra)
          · rcases hr1mem1 X hXr1 with hXr | hXt
            · exact hinvA X hEF hXr (List.mem_cons_of_mem _ hXrest)
            · subst hXt
              have hc := hinvB X hEF
              rw [List.count_cons_self] at hc
              have h0 : List.count X rest = 0 := by omega
              rw [List.count_eq_zero] at h0
              exact h0 hXrest
          · exact hnotEF_nm X (hextra X hXextra) hEF
        · -- an edge table is queued at most once
          intro X hEF
          rw [hq2, List.count_append]
          have hXnotnm : X ∉ nm := fun hmem => hnotEF_nm X hmem hEF
          have hextra0 : List.count X extra = 0 :=
            List.count_eq_zero.mpr (fun hmem => hXnotnm (hextra X hmem))
          have hrest : List.count X rest ≤ List.count X (t :: rest) :=
            List.count_le_count_cons X t rest
          have hc := hinvB X hEF
          omega
        · -- the recorded-order property
          intro X sqlX hlX hneX hXr2
          have hXnotnm : X ∉ nm := fun hmem => hneX (hF1 X hmem sqlX hlX)
          have hXr1 : X ∈ r1 :=
            ((processNames_snd_mem nm rest r1 X).mp hXr2).resolve_right hXnotnm
          have hnmX : ∀ n ∈ nm, n ≠ X := by
            intro n hn hEq
            rw [hEq] at hn
            exact hXnotnm hn
          by_cases hXt : X = t
          · subst hXt
            have hsql : sqlX = sqlT := by
              rw [hlook] at hlX
              exact (Option.some.inj hlX).symm
            subst hsql
            have htr : X ∉ r := by
              intro htr
              exact hinvA X ⟨sqlX, hlook, hneX⟩ htr (List.mem_cons_self _ _)
            have hr1eq : r1 = r ++ [X] := by
              rw [hr1def, if_neg htr]
            have hcount1 : List.count X r1 = 1 := by
              rw [hr1eq, List.count_append, List.count_eq_zero.mpr htr,
                List.count_singleton]
              simp
            have htrack := processNames_track X nm rest r1 (fun _ => False)
              hnmX hcount1 (fun Y hY => hY.elim)
            refine ⟨htrack.1, ?_⟩
            intro Y hY
            exact htrack.2 Y (Or.inr hY)
          · have hXr : X ∈ r := by
              rcases hr1mem1 X hXr1 with h | h
              · exact h
              · exact absurd h hXt
            have hold := hinvC X sqlX hlX hneX hXr
            have hcount1 : List.count X r1 = 1 := by
              rw [hr1def]
              split_ifs with h
              · exact hold.1
              · rw [List.count_append, List.count_singleton]
                have hbeq : (t == X) = false := beq_eq_false_iff_ne.mpr (Ne.symm hXt)
                rw [hbeq]
                simp [hold.1]
            have hsubs1 : ∀ Y, Y ∈ findall sqlX → List.Sublist [X, Y] r1 := by
              intro Y hY
              have hs := hold.2 Y hY
              rw [hr1def]
              split_ifs with h
              · exact hs
              · exact hs.trans (List.sublist_append_left _ _)
            have htrack := processNames_track X nm rest r1
              (fun Y => Y ∈ findall sqlX) hnmX hcount1 hsubs1
            exact ⟨htrack.1, fun Y hY => htrack.2 Y (Or.inl hY)⟩

theorem mem_firstOcc : ∀ (l seen : List String) (x : String),
    x ∈ firstOcc seen l ↔ (x ∈ l ∧ x ∉ seen) := by
  intro l
  induction l with
  | nil => intro seen x; simp [firstOcc]
  | cons a l ih =>
    intro seen x
    rw [firstOcc]
    by_cases ha : a ∈ seen
    · rw [if_pos ha, ih]
      constructor
      · rintro ⟨hx, hs⟩
        exact ⟨List.mem_cons_of_mem _ hx, hs⟩
      · rintro ⟨hx, hs⟩
        rcases List.mem_cons.mp hx with hEq | hmem
        · subst hEq
          exact absurd ha hs
        · exact ⟨hmem, hs⟩
    · rw [if_neg ha]
      rw [List.mem_cons, ih]
      constructor
      · rintro (hEq | ⟨hx, hs⟩)
        · subst hEq
          exact ⟨List.mem_cons_self _ _, ha⟩
        · have hxs : x ∉ seen := fun hmem => hs (List.mem_cons_of_mem _ hmem)
          exact ⟨List.mem_cons_of_mem _ hx, hxs⟩
      · rintro ⟨hx, hs⟩
        rcases List.mem_cons.mp hx with hEq | hmem
        · exact Or.inl hEq
        · by_cases hxa : x = a
          · exact Or.inl hxa
          · refine Or.inr ⟨hmem, ?_⟩
            rw [List.mem_cons]
            rintro (h | h)
            · exact hxa h
            · exact hs h

theorem sublist_pair_cons {y x a : String} {l : List String}
    (h : List.Sublist [y, x] (a :: l)) :
    List.Sublist [y, x] l ∨ (y = a ∧ List.Sublist [x] l) := by
  cases h with
  | cons _ h2 => exact Or.inl h2
  | cons₂ _ h2 => exact Or.inr ⟨rfl, h2⟩

theorem firstOcc_order (Y X : String) (hXY : X ≠ Y) :
    ∀ (l seen : List String),
      List.Sublist [Y, X] l → List.count X l = 1 → X ∉ seen →
      ((Y ∈ seen → List.Sublist [X] (firstOcc seen l)) ∧
       (Y ∉ seen → List.Sublist [Y, X] (firstOcc seen l))) := by
  intro l
  induction l with
  | nil =>
    intro seen hsub
    cases hsub
  | cons a l ih =>
    intro seen hsub hcount hXs
    rw [firstOcc]
    by_cases ha : a ∈ seen
    · rw [if_pos ha]
      have haX : a ≠ X := fun hEq => hXs (hEq ▸ ha)
      rcases sublist_pair_cons hsub with hsub2 | ⟨hya, hsubX⟩
      · have hcount2 : List.count X l = 1 := by
          rw [List.count_cons] at hcount
          rw [beq_eq_false_iff_ne.mpr haX] at hcount
          simpa using hcount
        exact ih seen hsub2 hcount2 hXs
      · subst hya
        constructor
        · intro _
          rw [List.singleton_sublist, mem_firstOcc]
          exact ⟨List.singleton_sublist.mp hsubX, hXs⟩
        · intro hYn
          exact absurd ha hYn
    · rw [if_neg ha]
      by_cases haX : a = X
      · subst haX
        rw [List.count_cons_self] at hcount
        have h0 : List.count a l = 0 := by omega
        rcases sublist_pair_cons hsub with hsub2 | ⟨hya, _⟩
        · have hXl : a ∈ l := hsub2.subset (by simp)
          rw [List.count_eq_zero] at h0
          exact absurd hXl h0
        · exact absurd hya.symm hXY
      · rcases sublist_pair_cons hsub with hsub2 | ⟨hya, hsubX⟩
        · have hcount2 : List.count X l = 1 := by
            rw [List.count_cons] at hcount
            rw [beq_eq_false_iff_ne.mpr haX] at hcount
            simpa using hcount
          have hXs2 : X ∉ (a :: seen) := by
            rw [List.mem_cons]
            rintro (h | h)
            · exact haX h.symm
            · exact hXs h
          have hrec := ih (a :: seen) hsub2 hcount2 hXs2
          by_cases hYa : Y = a
          · subst hYa
            constructor
            · intro _
              exact List.Sublist.cons _ (hrec.1 (List.mem_cons_self _ _))
            · intro _
              exact List.Sublist.cons₂ _ (hrec.1 (List.mem_cons_self _ _))
          · have hYmem : Y ∈ (a :: seen) ↔ Y ∈ seen := by
              rw [List.mem_cons]
              constructor
              · rintro (h | h)
                · exact absurd h hYa
                · exact h
              · exact Or.inr
            constructor
            · intro hYs
              exact List.Sublist.cons _ (hrec.1 (hYmem.mpr hYs))
            · intro hYn
              exact List.Sublist.cons _ (hrec.2 (fun h => hYn (hYmem.mp h)))
        · subst hya
          constructor
          · intro hYs
            exact absurd hYs ha
          · intro _
            apply List.Sublist.cons₂
            rw [List.singleton_sublist, mem_firstOcc]
            refine ⟨List.singleton_sublist.mp hsubX, ?_⟩
            rw [List.mem_cons]
            rintro (h | h)
            · exact hXY h
            · exact hXs h

/-- C4 counterexample: in the two-table database where A's creation SQL
references B, get_references called on the catalog's table list returns
[A, B]: A (the referencing table) appears before B (the referenced table),
so the returned sequence violates the claimed invariant at its first
occurrences. -/
theorem C4_counterexample :
    lookupSql dbW ("A") = some sqlA2 ∧
    ("B") ∈ findall sqlA2 ∧
    get_references dbW (get_all_tables dbW) = GRes.ok [("A"), ("B")] ∧
    List.indexOf ("A") [("A"), ("B")] < List.indexOf ("B") [("A"), ("B")] := by
  refine ⟨by rfl, by decide, by rfl, by decide⟩

/-- C4 amended: the sync-order invariant holds for the order in which the
output is consumed, not for the returned sequence itself, and for reference
graphs of depth one: if the input table list has no duplicates, no table
referenced by any catalog entry has references of its own, and X's creation
SQL references Y with X in the returned sequence, then Y strictly precedes X
in the reversed first-occurrence consumption order. -/
theorem C4_amended (db : List (String × String)) (tables out : List String)
    (X Y sqlX : String)
    (hnd : tables.Nodup)
    (hdepth : ∀ p ∈ db, ∀ Z ∈ findall p.2, ∀ pq ∈ db, pq.1 = Z → findall pq.2 = [])
    (hok : get_references db tables = GRes.ok out)
    (hX : lookupSql db X = some sqlX) (hY : Y ∈ findall sqlX)
    (hXout : X ∈ out) :
    List.Sublist [Y, X] (applyOrder out) := by
  have hne : findall sqlX ≠ [] := by
    intro h
    rw [h] at hY
    cases hY
  have hinv0 : GRInv db tables [] := by
    refine ⟨?_, ?_, ?_⟩
    · intro Xx _ hmem
      cases hmem
    · intro Xx _
      exact count_le_one_of_nodup hnd Xx
    · intro Xx s _ _ hmem
      cases hmem
  unfold get_references at hok
  have hmain := grRun_invariant db hdepth _ tables [] out hinv0 hok X sqlX hX hne hXout
  have hXY : X ≠ Y := by
    intro hEq
    apply hne
    exact hdepth (X, sqlX) (lookupSql_mem db X sqlX hX) Y hY (X, sqlX)
      (lookupSql_mem db X sqlX hX) hEq
  unfold applyOrder
  have hsubrev : List.Sublist [Y, X] out.reverse := by
    have h1 := (hmain.2 Y hY).reverse
    simpa using h1
  have hcrev : List.count X out.reverse = 1 := by
    rw [List.count_reverse]
    exact hmain.1
  have hfo := firstOcc_order Y X hXY out.reverse [] hsubrev hcrev (by simp)
  exact hfo.2 (by simp)

/-- Witness for C4 on the two-table database: B precedes A in the consumed
order. -/
theorem C4_witness :
    List.Sublist [("B"), ("A")] (applyOrder [("A"), ("B")]) :=
  C4_amended dbW (get_all_tables dbW) [("A"), ("B")] ("A") ("B") sqlA2
    (by decide) (by decide) (by rfl) (by rfl) (by decide) (by decide)
